import Mathlib

/-!
# Verification of the 2-D Euclidean TSP heuristic solver (`src/main.cpp`)

Shallow embedding of the solver's components:

* `buildDistances`   — the `DistanceMatrix` constructor (the double loop filling
  `distances[i][i] = 0` and `distances[i][j] = distances[j][i] = dist`);
* `kNearestNeighbors` — the `KNearestNeighbors` constructor (per-node sorted
  candidate lists with the trailing self sentinel);
* `calculateTourLength` — the cyclic tour-length sum;
* `greedyConstruction` — the nearest-unvisited-node construction;
* `scanCandidates` / `sweep` / `twoOptFuel` — the candidate-restricted 2-opt
  local search (`twoOpt`);
* `solveLoop` / `solveTSP` — the orchestrator.

Modelling conventions:

* Machine integers are modelled arithmetically: `uint16_t` stores are `% 65536`,
  the `uint32_t → int` conversion is `intOfUInt32` (two's-complement wrap), and
  `int` arithmetic is `ℤ`.  The `uint64_t` tour-length accumulator cannot wrap
  (at most `65536` summands, each `< 2^32`), so it is a plain `ℕ` sum.
* `calcDistance` computes `round(sqrt(dx*dx+dy*dy))` on IEEE doubles; its value
  is abstracted as a function `c : ℕ → ℕ → ℕ` giving the distance value for an
  index pair (`c i j` stands for `calcDistance(points[i], points[j])`).  Every
  theorem below holds for every such `c`, so nothing depends on the
  floating-point computation itself.
* `std::reverse(first, last)` on random-access iterators performs swaps under
  the loop `while (first < last)`, hence it is a no-op when `first >= last`;
  `reverseRange` models exactly that (the call with an inverted range is
  undefined behaviour in C++, and the no-op is what the common library
  implementation does).
* The wall-clock deadline check in `solveTSP` is modelled by a boolean oracle
  `oracle : ℕ → Bool` telling whether the deadline has passed before round `r`,
  and the (possibly non-terminating) `while` loops run on explicit fuel,
  returning `Option`.
-/

namespace TSP2D

/-- Write value `v` into cell `(a, b)` of a matrix modelled as a total
function (`distances[a][b] = v`). -/
def setCell (m : ℕ → ℕ → ℕ) (a b v : ℕ) : ℕ → ℕ → ℕ :=
  fun x y => if x = a ∧ y = b then v else m x y

/-- One inner-loop step of the `DistanceMatrix` constructor:
`distances[i][j] = distances[j][i] = dist` with `dist = c i j`. -/
def setPair (c : ℕ → ℕ → ℕ) (i : ℕ) (m : ℕ → ℕ → ℕ) (j : ℕ) : ℕ → ℕ → ℕ :=
  setCell (setCell m j i (c i j)) i j (c i j)

/-- One outer-loop iteration of the constructor: `distances[i][i] = 0`
followed by the inner loop over `j = i+1 .. n-1`. -/
def buildRow (c : ℕ → ℕ → ℕ) (n : ℕ) (m : ℕ → ℕ → ℕ) (i : ℕ) : ℕ → ℕ → ℕ :=
  (List.range' (i + 1) (n - (i + 1))).foldl (setPair c i) (setCell m i i 0)

/-- The `DistanceMatrix` constructor: the vector is zero-initialised by
`resize`, then filled row by row.  `c i j` abstracts
`calcDistance(points[i], points[j])`. -/
def buildDistances (n : ℕ) (c : ℕ → ℕ → ℕ) : ℕ → ℕ → ℕ :=
  (List.range n).foldl (buildRow c n) (fun _ _ => 0)

/-- `DistanceMatrix::getDistance`. -/
def getDistance (m : ℕ → ℕ → ℕ) (i j : ℕ) : ℕ := m i j

/-- A matrix is symmetric with zero diagonal. -/
def SymZeroDiag (m : ℕ → ℕ → ℕ) : Prop :=
  (∀ i, m i i = 0) ∧ ∀ i j, m i j = m j i

/-- `calculateTourLength`: the sum over `i < n` of
`d(tour[i], tour[(i+1) % n])`.  The `uint64_t` accumulator cannot wrap
(at most `2^16` summands below `2^32`), so the sum is over `ℕ`. -/
def calculateTourLength (d : ℕ → ℕ → ℕ) (t : List ℕ) : ℕ :=
  ((List.range t.length).map
    (fun i => d (t.getD i 0) (t.getD ((i + 1) % t.length) 0))).sum

/-- A `uint32_t` value converted to `int` (two's-complement wrap, the
behaviour of every supported implementation). -/
def intOfUInt32 (v : ℕ) : ℤ :=
  if v % 4294967296 < 2147483648 then ((v % 4294967296 : ℕ) : ℤ)
  else ((v % 4294967296 : ℕ) : ℤ) - 4294967296

/-- An `int` value stored into a `uint16_t` slot (reduction mod `2^16`). -/
def toUInt16 (z : ℤ) : ℕ := (z % 65536).toNat

/-- The comparison `std::sort` uses on `pair<uint32_t, uint16_t>`:
lexicographic order (as a total preorder; the pairs sorted below are
pairwise distinct, so the sorted result is the unique sorted permutation and
does not depend on the sorting algorithm — the model sorts by structural
insertion sort so that it also reduces inside the kernel). -/
def pairLE (p q : ℕ × ℕ) : Prop := p.1 < q.1 ∨ (p.1 = q.1 ∧ p.2 ≤ q.2)

instance : DecidableRel pairLE := fun p q => by
  unfold pairLE; exact inferInstance

instance : IsTotal (ℕ × ℕ) pairLE :=
  ⟨fun p q => by unfold pairLE; omega⟩

instance : IsTrans (ℕ × ℕ) pairLE :=
  ⟨fun p q r hpq hqr => by
    unfold pairLE at hpq hqr ⊢; omega⟩

/-- The `KNearestNeighbors` constructor, row of node `i`: collect
`(getDistance(i, j), j)` for `j ≠ i` in index order (the index stored as
`uint16_t`), sort, keep the first `k = min(K, n-1)` indices, and append `i`
itself as the trailing sentinel. -/
def kNearestNeighbors (d : ℕ → ℕ → ℕ) (n K i : ℕ) : List ℕ :=
  let k := min K (n - 1)
  let distPairs := ((List.range n).filter (fun j => i ≠ j)).map
    (fun j => (d i j, j % 65536))
  ((distPairs.insertionSort pairLE).take k).map (fun p => p.2) ++ [i % 65536]

/-- One iteration of the inner scan of `greedyConstruction` over `j`, with
state `(best_next, min_dist)`: an unvisited `j` whose distance (as `int`)
is `< min_dist` becomes the new best. -/
def scanStep (d : ℕ → ℕ → ℕ) (used : ℤ → Bool) (prev : ℕ)
    (acc : ℤ × ℤ) (j : ℕ) : ℤ × ℤ :=
  if used (j : ℤ) = false then
    if intOfUInt32 (d prev j) < acc.2 then ((j : ℤ), intOfUInt32 (d prev j))
    else acc
  else acc

/-- The inner scan of `greedyConstruction`: fold `scanStep` over
`j = 0 .. n-1` starting from `(-1, INT_MAX)`. -/
def greedyScan (d : ℕ → ℕ → ℕ) (n : ℕ) (used : ℤ → Bool) (prev : ℕ) : ℤ × ℤ :=
  (List.range n).foldl (scanStep d used prev) (-1, 2147483647)

/-- The `for (i = 1; i < n; i++)` loop of `greedyConstruction`, with
`steps = n - i` iterations left.  `tour[i-1]` is the last element appended so
far; the chosen `best_next` is stored as `uint16_t` and marked visited
(`used` is indexed by `int`: when `best_next` stays `-1` — possible only when
every unvisited distance is at least `INT_MAX` — the C++ writes
`used[-1]`, out of bounds; the model keeps that write at index `-1`). -/
def greedyAux (d : ℕ → ℕ → ℕ) (n : ℕ) : ℕ → List ℕ → (ℤ → Bool) → List ℕ
  | 0, tour, _ => tour
  | steps + 1, tour, used =>
    let prev := tour.getD (tour.length - 1) 0
    let best := (greedyScan d n used prev).1
    greedyAux d n steps (tour ++ [toUInt16 best]) (Function.update used best true)

/-- `greedyConstruction`: start at node `0`, then repeatedly append the
nearest unvisited node.  (For `n = 0` the C++ writes `tour[0]` on an empty
vector — undefined; the claims all assume `n ≥ 1`, and the model returns the
empty tour.) -/
def greedyConstruction (d : ℕ → ℕ → ℕ) (n : ℕ) : List ℕ :=
  if n = 0 then [] else
    greedyAux d n (n - 1) [0] (Function.update (fun _ => false) 0 true)

/-- Specification predicate (claim C7): position `i` of tour `R` holds an
in-range node that was still unvisited (not among the first `i` entries) and
is at minimum distance from its predecessor `R[i-1]`, ties broken toward the
lowest node index. -/
def GreedyChoice (d : ℕ → ℕ → ℕ) (n : ℕ) (R : List ℕ) (i : ℕ) : Prop :=
  R.getD i 0 < n ∧ R.getD i 0 ∉ R.take i ∧
  ∀ j, j < n → j ∉ R.take i →
    d (R.getD (i - 1) 0) (R.getD i 0) < d (R.getD (i - 1) 0) j ∨
    (d (R.getD (i - 1) 0) (R.getD i 0) = d (R.getD (i - 1) 0) j ∧
      R.getD i 0 ≤ j)

instance (d : ℕ → ℕ → ℕ) (n : ℕ) (R : List ℕ) (i : ℕ) :
    Decidable (GreedyChoice d n R i) := by
  unfold GreedyChoice
  exact inferInstance

/-- `std::reverse(tour.begin() + a, tour.begin() + b)`.  The random-access
implementation swaps under `while (first < last)`, so an inverted range
(`b ≤ a`, undefined behaviour in the abstract machine) performs no swaps. -/
def reverseRange (t : List ℕ) (a b : ℕ) : List ℕ :=
  if b ≤ a then t
  else t.take a ++ ((t.drop a).take (b - a)).reverse ++ t.drop b

/-- The inner candidate loop of `twoOpt` for edge `(u, v)` at position `u_i`:
walk `u`'s candidate list; `w_i` is `find(tour.begin(), tour.end(), w)`;
skip `w` at `u_i` or at `(u_i + 1) % n`; return the position `w_i` of the
first candidate with `new_dist < curr_dist`, where
`curr_dist = d(u,v) + d(w,z)` and `new_dist = d(u,w) + d(v,z)` are
`uint32_t` sums and therefore wrap modulo `2^32` (the loop then breaks). -/
def scanCandidates (d : ℕ → ℕ → ℕ) (t : List ℕ) (n u_i u v : ℕ) :
    List ℕ → Option ℕ
  | [] => none
  | w :: rest =>
    let w_i := t.indexOf w
    if w_i = u_i ∨ w_i = (u_i + 1) % n then scanCandidates d t n u_i u v rest
    else
      let z := t.getD ((w_i + 1) % n) 0
      if (d u w + d v z) % 4294967296 < (d u v + d w z) % 4294967296 then
        some w_i
      else scanCandidates d t n u_i u v rest

/-- The body of the position loop of a `twoOpt` sweep.  The state is the
current tour together with the negation of `locallyOptimal` (true iff some
move has been applied this sweep). -/
def sweepStep (d : ℕ → ℕ → ℕ) (nb : ℕ → List ℕ) (n : ℕ)
    (s : List ℕ × Bool) (u_i : ℕ) : List ℕ × Bool :=
  let u := s.1.getD u_i 0
  let v := s.1.getD (u_i + 1) 0
  match scanCandidates d s.1 n u_i u v (nb u) with
  | none => s
  | some w_i => (reverseRange s.1 (u_i + 1) (w_i + 1), true)

/-- One full sweep of `twoOpt`: `for (u_i = 0; u_i < n - 1; ++u_i)`. -/
def sweep (d : ℕ → ℕ → ℕ) (nb : ℕ → List ℕ) (t : List ℕ) : List ℕ × Bool :=
  (List.range (t.length - 1)).foldl (sweepStep d nb t.length) (t, false)

/-- `twoOpt`: run sweeps `while (!locallyOptimal)`.  The C++ loop has no
other exit, so it is modelled on fuel: `none` means the fuel ran out before
a sweep without improvement occurred. -/
def twoOptFuel (d : ℕ → ℕ → ℕ) (nb : ℕ → List ℕ) : ℕ → List ℕ → Option (List ℕ)
  | 0, _ => none
  | fuel + 1, t =>
    match sweep d nb t with
    | (t2, false) => some t2
    | (t2, true) => twoOptFuel d nb fuel t2

/-- The orchestrator loop of `solveTSP`: while `improved`, check the
deadline (`oracle r` is the result of the elapsed-time test before round
`r`), snapshot the tour, run `twoOpt` (with fuel `tfuel`), and restore the
snapshot and stop when the round did not strictly decrease the length. -/
def solveLoop (d : ℕ → ℕ → ℕ) (nb : ℕ → List ℕ) (oracle : ℕ → Bool)
    (tfuel : ℕ) : ℕ → ℕ → List ℕ → Bool → Option (List ℕ)
  | 0, _, _, _ => none
  | fuel + 1, r, tour, improved =>
    if improved = false then some tour
    else if oracle r then some tour
    else
      match twoOptFuel d nb tfuel tour with
      | none => none
      | some t2 =>
        if calculateTourLength d tour ≤ calculateTourLength d t2 then
          solveLoop d nb oracle tfuel fuel (r + 1) tour false
        else
          solveLoop d nb oracle tfuel fuel (r + 1) t2 true

/-- `solveTSP`: build the distance matrix and the candidate lists (`K = 20`),
construct the greedy tour, and run the improvement loop. -/
def solveTSP (n : ℕ) (c : ℕ → ℕ → ℕ) (oracle : ℕ → Bool) (tfuel rfuel : ℕ) :
    Option (List ℕ) :=
  let d := buildDistances n c
  let nb := fun u => kNearestNeighbors d n 20 u
  let tour := greedyConstruction d n
  solveLoop d nb oracle tfuel rfuel 0 tour true

/-! ## Concrete instance on which `twoOpt` applies an inverted-range move -/

/-- A symmetric, zero-diagonal 6×6 distance matrix (explicit values). -/
def loopD : ℕ → ℕ → ℕ := fun i j =>
  (([[0, 2, 8, 4, 4, 3], [2, 0, 9, 4, 6, 5], [8, 9, 0, 3, 9, 9],
     [4, 4, 3, 0, 1, 5], [4, 6, 9, 1, 0, 7],
     [3, 5, 9, 5, 7, 0]].getD i []).getD j 0)

/-- The candidate structure `KNearestNeighbors(loopD, 1)`. -/
def loopNb : ℕ → List ℕ := fun u => kNearestNeighbors loopD 6 1 u

/-- A permutation tour of the 6 nodes. -/
def loopTour : List ℕ := [1, 3, 4, 5, 2, 0]

/-- The `calcDistance` values of the collinear point set
`(0,0), (5·10^8,0), (2.2·10^9,0), (2.7·10^9,0)` (two clusters
`5·10^8` wide, `2.2·10^9` apart; all pairwise distances are exact
integers). -/
def overflowC : ℕ → ℕ → ℕ := fun i j =>
  (([[0, 500000000, 2200000000, 2700000000],
     [500000000, 0, 1700000000, 2200000000],
     [2200000000, 1700000000, 0, 500000000],
     [2700000000, 2200000000, 500000000, 0]].getD i []).getD j 0)

/-- The distance matrix the program builds from those four points.
`d(0,3) = 2.7·10^9 ≥ 2^31`, so the `uint32_t → int` conversion in the
greedy scan wraps negative, and sums of two cross-cluster distances
exceed `2^32`, so the `uint32_t` additions in `twoOpt` wrap. -/
def overflowD : ℕ → ℕ → ℕ := buildDistances 4 overflowC

/-- Open-path length: the sum of `d` over adjacent pairs of a list
(no closing edge). -/
def pathLen (d : ℕ → ℕ → ℕ) : List ℕ → ℕ
  | [] => 0
  | [_] => 0
  | a :: b :: r => d a b + pathLen d (b :: r)

/-! ## Lemmas -/

lemma foldl_inv {α β : Type} {P : β → Prop} {f : β → α → β} {l : List α} {b : β}
    (hb : P b) (hf : ∀ s x, x ∈ l → P s → P (f s x)) : P (l.foldl f b) := by
  induction l generalizing b with
  | nil => exact hb
  | cons x xs ih =>
      exact ih (hf b x (List.mem_cons_self x xs) hb)
        (fun s y hy => hf s y (List.mem_cons_of_mem x hy))

lemma setCell_symZeroDiag_diag {m : ℕ → ℕ → ℕ} (i : ℕ) (h : SymZeroDiag m) :
    SymZeroDiag (setCell m i i 0) := by
  obtain ⟨hd, hs⟩ := h
  constructor
  · intro x
    by_cases hx : x = i <;> simp [setCell, hx, hd]
  · intro x y
    unfold setCell
    by_cases hxy : x = i ∧ y = i
    · obtain ⟨hx, hy⟩ := hxy
      simp [hx, hy]
    · have hyx : ¬(y = i ∧ x = i) := fun ⟨h1, h2⟩ => hxy ⟨h2, h1⟩
      simp only [if_neg hxy, if_neg hyx]
      exact hs x y

lemma setPair_symZeroDiag {c : ℕ → ℕ → ℕ} {m : ℕ → ℕ → ℕ} {i j : ℕ}
    (hij : i ≠ j) (h : SymZeroDiag m) : SymZeroDiag (setPair c i m j) := by
  obtain ⟨hd, hs⟩ := h
  constructor
  · intro x
    unfold setPair setCell
    have h1 : ¬(x = i ∧ x = j) := fun ⟨h1, h2⟩ => hij (h1 ▸ h2)
    have h2 : ¬(x = j ∧ x = i) := fun ⟨h1, h2⟩ => hij (h2 ▸ h1)
    simp only [if_neg h1, if_neg h2]
    exact hd x
  · intro x y
    unfold setPair setCell
    by_cases hxy : x = i ∧ y = j
    · obtain ⟨hx, hy⟩ := hxy
      simp [hx, hy, hij, hij.symm]
    · by_cases hxy2 : x = j ∧ y = i
      · obtain ⟨hx, hy⟩ := hxy2
        simp [hx, hy, hij, hij.symm]
      · have hyx : ¬(y = i ∧ x = j) := fun ⟨h1, h2⟩ => hxy2 ⟨h2, h1⟩
        have hyx2 : ¬(y = j ∧ x = i) := fun ⟨h1, h2⟩ => hxy ⟨h2, h1⟩
        simp only [if_neg hxy, if_neg hxy2, if_neg hyx, if_neg hyx2]
        exact hs x y

lemma buildRow_symZeroDiag {c : ℕ → ℕ → ℕ} {n : ℕ} {m : ℕ → ℕ → ℕ} {i : ℕ}
    (h : SymZeroDiag m) : SymZeroDiag (buildRow c n m i) := by
  unfold buildRow
  refine foldl_inv (setCell_symZeroDiag_diag i h) (fun s j hj hs => ?_)
  have hij : i ≠ j := by
    have := List.mem_range'_1.1 hj
    omega
  exact setPair_symZeroDiag hij hs

/-- Every constructed distance matrix is symmetric with zero diagonal. -/
lemma buildDistances_symZeroDiag (n : ℕ) (c : ℕ → ℕ → ℕ) :
    SymZeroDiag (buildDistances n c) := by
  unfold buildDistances
  exact foldl_inv ⟨fun _ => rfl, fun _ _ => rfl⟩
    (fun s i _ hs => buildRow_symZeroDiag hs)

/-- Every entry of a constructed distance matrix is `0` or some `c i j`, so it
inherits any upper bound on `c` (used to rule out `int` overflow). -/
lemma buildDistances_lt {n : ℕ} {c : ℕ → ℕ → ℕ} {B : ℕ} (hB : 0 < B)
    (hc : ∀ i j, c i j < B) : ∀ x y, buildDistances n c x y < B := by
  unfold buildDistances
  refine @foldl_inv _ _ (fun (m : ℕ → ℕ → ℕ) => ∀ x y, m x y < B) _ _ _ (fun x y => hB) ?_
  intro s i _ hs
  unfold buildRow
  refine @foldl_inv _ _ (fun (m : ℕ → ℕ → ℕ) => ∀ x y, m x y < B) _ _ _ ?_ ?_
  · intro x y
    unfold setCell
    split
    · exact hB
    · exact hs x y
  · intro s2 j _ hs2 x y
    unfold setPair setCell
    split
    · exact hc i j
    · split
      · exact hc i j
      · exact hs2 x y


lemma pathLen_cons (d : ℕ → ℕ → ℕ) (a : ℕ) {l : List ℕ} (h : l ≠ []) :
    pathLen d (a :: l) = d a (l.getD 0 0) + pathLen d l := by
  cases l with
  | nil => exact absurd rfl h
  | cons b r => rfl

lemma pathLen_eq_sum (d : ℕ → ℕ → ℕ) (t : List ℕ) :
    ((List.range (t.length - 1)).map
      (fun i => d (t.getD i 0) (t.getD (i + 1) 0))).sum = pathLen d t := by
  induction t with
  | nil => rfl
  | cons a l ih =>
      cases l with
      | nil => rfl
      | cons b r =>
          have hlen : (a :: b :: r).length - 1 = (b :: r).length - 1 + 1 := by
            simp
          rw [hlen, List.range_succ_eq_map, List.map_cons, List.map_map,
            List.sum_cons]
          have hmap :
              ((List.range ((b :: r).length - 1)).map
                ((fun i => d ((a :: b :: r).getD i 0)
                  ((a :: b :: r).getD (i + 1) 0)) ∘ Nat.succ)) =
              ((List.range ((b :: r).length - 1)).map
                (fun i => d ((b :: r).getD i 0) ((b :: r).getD (i + 1) 0))) := by
            refine List.map_congr_left (fun i _ => ?_)
            simp [List.getD_cons_succ]
          rw [hmap, ih]
          rfl

lemma calculateTourLength_eq (d : ℕ → ℕ → ℕ) (t : List ℕ) (h : t ≠ []) :
    calculateTourLength d t =
      pathLen d t + d (t.getD (t.length - 1) 0) (t.getD 0 0) := by
  have hn : 0 < t.length := List.length_pos.2 h
  unfold calculateTourLength
  have hsplit : List.range t.length = List.range (t.length - 1) ++ [t.length - 1] := by
    have : t.length = (t.length - 1) + 1 := by omega
    rw [this, List.range_succ]
    simp
  rw [hsplit, List.map_append, List.sum_append]
  have hmap :
      ((List.range (t.length - 1)).map
        (fun i => d (t.getD i 0) (t.getD ((i + 1) % t.length) 0))) =
      ((List.range (t.length - 1)).map
        (fun i => d (t.getD i 0) (t.getD (i + 1) 0))) := by
    refine List.map_congr_left (fun i hi => ?_)
    have hilt : i < t.length - 1 := List.mem_range.1 hi
    have : (i + 1) % t.length = i + 1 := Nat.mod_eq_of_lt (by omega)
    rw [this]
  rw [hmap, pathLen_eq_sum]
  have hlast : (t.length - 1 + 1) % t.length = 0 := by
    have : t.length - 1 + 1 = t.length := by omega
    rw [this, Nat.mod_self]
  simp [hlast]

lemma pathLen_append (d : ℕ → ℕ → ℕ) (A B : List ℕ) (hA : A ≠ []) (hB : B ≠ []) :
    pathLen d (A ++ B) =
      pathLen d A + d (A.getD (A.length - 1) 0) (B.getD 0 0) + pathLen d B := by
  induction A with
  | nil => exact absurd rfl hA
  | cons a A2 ih =>
      cases hA2 : A2 with
      | nil =>
          subst hA2
          cases B with
          | nil => exact absurd rfl hB
          | cons b r => simp [pathLen, pathLen_cons]
      | cons x xs =>
          have hA2ne : A2 ≠ [] := by rw [hA2]; exact List.cons_ne_nil _ _
          rw [← hA2]
          have h1 : (a :: A2) ++ B = a :: (A2 ++ B) := rfl
          have h2 : A2 ++ B ≠ [] := by
            intro hcon
            exact hA2ne (List.append_eq_nil.1 hcon).1
          rw [h1, pathLen_cons d a h2, pathLen_cons d a hA2ne, ih hA2ne]
          have h3 : (A2 ++ B).getD 0 0 = A2.getD 0 0 :=
            List.getD_append _ _ _ _ (List.length_pos.2 hA2ne)
          have h4 : ((a :: A2).getD ((a :: A2).length - 1) 0) =
              A2.getD (A2.length - 1) 0 := by
            have : (a :: A2).length - 1 = (A2.length - 1) + 1 := by
              have := List.length_pos.2 hA2ne
              simp
              omega
            rw [this, List.getD_cons_succ]
          rw [h3, h4]
          ring

lemma getD_reverse (t : List ℕ) {i : ℕ} (h : i < t.length) :
    t.reverse.getD i 0 = t.getD (t.length - 1 - i) 0 := by
  have h1 : i < t.reverse.length := by simpa using h
  have h2 : t.length - 1 - i < t.length := by omega
  rw [List.getD_eq_getElem _ _ h1, List.getD_eq_getElem _ _ h2]
  exact List.getElem_reverse _

lemma pathLen_reverse (d : ℕ → ℕ → ℕ) (hsym : ∀ x y, d x y = d y x)
    (l : List ℕ) : pathLen d l.reverse = pathLen d l := by
  induction l with
  | nil => rfl
  | cons a l2 ih =>
      cases hl2 : l2 with
      | nil => rfl
      | cons x xs =>
          have hl2ne : l2 ≠ [] := by rw [hl2]; exact List.cons_ne_nil _ _
          rw [← hl2]
          have hrev : (a :: l2).reverse = l2.reverse ++ [a] := by simp
          have hrne : l2.reverse ≠ [] := by simpa using hl2ne
          rw [hrev, pathLen_append d l2.reverse [a] hrne (List.cons_ne_nil _ _)]
          have hlast : l2.reverse.getD (l2.reverse.length - 1) 0 = l2.getD 0 0 := by
            have hpos : 0 < l2.length := List.length_pos.2 hl2ne
            have hlen : l2.reverse.length = l2.length := by simp
            rw [hlen]
            rw [getD_reverse l2 (by omega)]
            congr 1
            omega
          rw [hlast, ih, pathLen_cons d a hl2ne]
          have hz : pathLen d [a] = 0 := rfl
          rw [hz]
          simp only [List.getD_cons_zero]
          rw [hsym (l2.getD 0 0) a]
          ring

lemma calculateTourLength_rotate_one (d : ℕ → ℕ → ℕ) (t : List ℕ) :
    calculateTourLength d (t.rotate 1) = calculateTourLength d t := by
  cases t with
  | nil => rfl
  | cons a l =>
      cases hl : l with
      | nil => rw [List.rotate_singleton]
      | cons x xs =>
          have hlne : l ≠ [] := by rw [hl]; exact List.cons_ne_nil _ _
          rw [← hl]
          have hrot : (a :: l).rotate 1 = l ++ [a] := by
            have := List.rotate_cons_succ l a 0
            simpa using this
          have hne1 : l ++ [a] ≠ [] := by simp
          have hne2 : (a : ℕ) :: l ≠ [] := List.cons_ne_nil _ _
          rw [hrot, calculateTourLength_eq d _ hne1, calculateTourLength_eq d _ hne2]
          rw [pathLen_append d l [a] hlne (List.cons_ne_nil _ _)]
          have hpos : 0 < l.length := List.length_pos.2 hlne
          have e1 : (l ++ [a]).getD ((l ++ [a]).length - 1) 0 = a := by
            have hlen : (l ++ [a]).length - 1 = l.length := by simp
            rw [hlen, List.getD_append_right _ _ _ _ (le_refl _)]
            simp
          have e2 : (l ++ [a]).getD 0 0 = l.getD 0 0 :=
            List.getD_append _ _ _ _ hpos
          have e3 : (a :: l).getD ((a :: l).length - 1) 0 = l.getD (l.length - 1) 0 := by
            have : (a :: l).length - 1 = (l.length - 1) + 1 := by
              simp
              omega
            rw [this, List.getD_cons_succ]
          rw [e1, e2, e3, pathLen_cons d a hlne]
          simp only [pathLen, List.getD_cons_zero]
          omega

lemma calculateTourLength_rotate (d : ℕ → ℕ → ℕ) (t : List ℕ) (k : ℕ) :
    calculateTourLength d (t.rotate k) = calculateTourLength d t := by
  induction k with
  | zero => rw [List.rotate_zero]
  | succ m ih =>
      have : t.rotate (m + 1) = (t.rotate m).rotate 1 := by
        rw [List.rotate_rotate]

      rw [this, calculateTourLength_rotate_one, ih]

lemma calculateTourLength_reverse (d : ℕ → ℕ → ℕ) (hsym : ∀ x y, d x y = d y x)
    (t : List ℕ) : calculateTourLength d t.reverse = calculateTourLength d t := by
  cases ht : t with
  | nil => rfl
  | cons a l =>
      rw [← ht]
      have htne : t ≠ [] := by rw [ht]; exact List.cons_ne_nil _ _
      have hrne : t.reverse ≠ [] := by simpa using htne
      have hpos : 0 < t.length := List.length_pos.2 htne
      rw [calculateTourLength_eq d _ hrne, calculateTourLength_eq d _ htne,
        pathLen_reverse d hsym]
      have hlen : t.reverse.length = t.length := by simp
      have e1 : t.reverse.getD (t.reverse.length - 1) 0 = t.getD 0 0 := by
        rw [hlen, getD_reverse t (by omega)]
        congr 1
        omega
      have e2 : t.reverse.getD 0 0 = t.getD (t.length - 1) 0 := by
        rw [getD_reverse t (by omega)]
        congr 1
      rw [e1, e2, hsym (t.getD 0 0) (t.getD (t.length - 1) 0)]

lemma reverseRange_length (t : List ℕ) (a b : ℕ) :
    (reverseRange t a b).length = t.length := by
  unfold reverseRange
  split
  · rfl
  · simp [List.length_take, List.length_drop]
    omega

lemma reverseRange_perm (t : List ℕ) (a b : ℕ) :
    (reverseRange t a b).Perm t := by
  unfold reverseRange
  split
  · exact List.Perm.refl t
  · have h2 : (t.drop a).take (b - a) ++ (t.drop a).drop (b - a) = t.drop a :=
      List.take_append_drop _ _
    have h3 : (t.drop a).drop (b - a) = t.drop b := by
      rw [List.drop_drop]
      congr 1
      omega
    have hp : (((t.drop a).take (b - a)).reverse ++ t.drop b).Perm
        ((t.drop a).take (b - a) ++ t.drop b) :=
      (List.reverse_perm _).append_right _
    have hp2 := hp.append_left (t.take a)
    rw [List.append_assoc]
    refine hp2.trans ?_
    rw [← h3, h2, List.take_append_drop]

lemma getD_take (t : List ℕ) {a i : ℕ} (h : i < a) (h2 : i < t.length) :
    (t.take a).getD i 0 = t.getD i 0 := by
  have hl : i < (t.take a).length := by
    simp [List.length_take]
    omega
  rw [List.getD_eq_getElem _ _ hl, List.getD_eq_getElem _ _ h2]
  exact List.getElem_take t

lemma getD_drop (t : List ℕ) {a i : ℕ} (h : a + i < t.length) :
    (t.drop a).getD i 0 = t.getD (a + i) 0 := by
  have hl : i < (t.drop a).length := by
    simp [List.length_drop]
    omega
  rw [List.getD_eq_getElem _ _ hl, List.getD_eq_getElem _ _ h]
  exact List.getElem_drop t

/-- The effect of reversing the middle segment of a cyclic tour
`P ++ M ++ S` on its length: the two boundary edges are exchanged and
everything else is preserved (stated additively to stay in `ℕ`). -/
lemma tourLen_three (d : ℕ → ℕ → ℕ) (hsym : ∀ x y, d x y = d y x)
    (P M S : List ℕ) (hP : P ≠ []) (hM : M ≠ []) :
    calculateTourLength d (P ++ M.reverse ++ S) +
      (d (P.getD (P.length - 1) 0) (M.getD 0 0) +
       d (M.getD (M.length - 1) 0) ((S ++ P).getD 0 0)) =
    calculateTourLength d (P ++ M ++ S) +
      (d (P.getD (P.length - 1) 0) (M.getD (M.length - 1) 0) +
       d (M.getD 0 0) ((S ++ P).getD 0 0)) := by
  have hPpos : 0 < P.length := List.length_pos.2 hP
  have hMpos : 0 < M.length := List.length_pos.2 hM
  have hMrev : M.reverse ≠ [] := by simpa using hM
  have hMrevlen : M.reverse.length = M.length := by simp
  have hrev0 : M.reverse.getD 0 0 = M.getD (M.length - 1) 0 := by
    rw [getD_reverse M (by omega)]
    congr 1
  have hrevlast : M.reverse.getD (M.length - 1) 0 = M.getD 0 0 := by
    rw [getD_reverse M (by omega)]
    congr 1
    omega
  cases S with
  | nil =>
      simp only [List.append_nil, List.nil_append]
      have hPM : (P ++ M) ≠ [] := by
        intro hcon
        exact hP (List.append_eq_nil.1 hcon).1
      have hPMrev : (P ++ M.reverse) ≠ [] := by
        intro hcon
        exact hP (List.append_eq_nil.1 hcon).1
      rw [calculateTourLength_eq d _ hPM, calculateTourLength_eq d _ hPMrev,
        pathLen_append d P M hP hM, pathLen_append d P M.reverse hP hMrev,
        pathLen_reverse d hsym]
      have e1 : (P ++ M).getD ((P ++ M).length - 1) 0 = M.getD (M.length - 1) 0 := by
        rw [List.getD_append_right _ _ _ _ (by simp; omega)]
        congr 1
        simp
        omega
      have e2 : (P ++ M).getD 0 0 = P.getD 0 0 :=
        List.getD_append _ _ _ _ hPpos
      have e3 : (P ++ M.reverse).getD ((P ++ M.reverse).length - 1) 0 =
          M.getD 0 0 := by
        rw [List.getD_append_right _ _ _ _ (by simp; omega)]
        rw [← hrevlast]
        congr 1
        simp
        omega
      have e4 : (P ++ M.reverse).getD 0 0 = P.getD 0 0 :=
        List.getD_append _ _ _ _ hPpos
      rw [e1, e2, e3, e4, hrev0]
      omega
  | cons s S2 =>
      have hS : (s :: S2 : List ℕ) ≠ [] := List.cons_ne_nil _ _
      have hSpos : 0 < (s :: S2 : List ℕ).length := List.length_pos.2 hS
      have hPM : (P ++ M) ≠ [] := by
        intro hcon
        exact hP (List.append_eq_nil.1 hcon).1
      have hPMrev : (P ++ M.reverse) ≠ [] := by
        intro hcon
        exact hP (List.append_eq_nil.1 hcon).1
      have hT : (P ++ M ++ s :: S2) ≠ [] := by
        intro hcon
        exact hPM (List.append_eq_nil.1 hcon).1
      have hTrev : (P ++ M.reverse ++ s :: S2) ≠ [] := by
        intro hcon
        exact hPMrev (List.append_eq_nil.1 hcon).1
      rw [calculateTourLength_eq d _ hT, calculateTourLength_eq d _ hTrev,
        pathLen_append d (P ++ M) (s :: S2) hPM hS,
        pathLen_append d (P ++ M.reverse) (s :: S2) hPMrev hS,
        pathLen_append d P M hP hM, pathLen_append d P M.reverse hP hMrev,
        pathLen_reverse d hsym]
      have e1 : (P ++ M).getD ((P ++ M).length - 1) 0 = M.getD (M.length - 1) 0 := by
        rw [List.getD_append_right _ _ _ _ (by simp; omega)]
        congr 1
        simp
        omega
      have e1r : (P ++ M.reverse).getD ((P ++ M.reverse).length - 1) 0 =
          M.getD 0 0 := by
        rw [List.getD_append_right _ _ _ _ (by simp; omega)]
        rw [← hrevlast]
        congr 1
        simp
        omega
      have e2 : (P ++ M ++ s :: S2).getD ((P ++ M ++ s :: S2).length - 1) 0 =
          (s :: S2).getD ((s :: S2).length - 1) 0 := by
        rw [List.getD_append_right _ _ _ _ (by simp; omega)]
        congr 1
        simp
        omega
      have e2r :
          (P ++ M.reverse ++ s :: S2).getD ((P ++ M.reverse ++ s :: S2).length - 1) 0 =
          (s :: S2).getD ((s :: S2).length - 1) 0 := by
        rw [List.getD_append_right _ _ _ _ (by simp; omega)]
        congr 1
        simp
        omega
      have e3 : (P ++ M ++ s :: S2).getD 0 0 = P.getD 0 0 := by
        rw [List.getD_append _ _ _ _ (by simp; omega)]
        exact List.getD_append _ _ _ _ hPpos
      have e3r : (P ++ M.reverse ++ s :: S2).getD 0 0 = P.getD 0 0 := by
        rw [List.getD_append _ _ _ _ (by simp; omega)]
        exact List.getD_append _ _ _ _ hPpos
      have e4 : ((s :: S2) ++ P).getD 0 0 = (s :: S2).getD 0 0 :=
        List.getD_append _ _ _ _ hSpos
      rw [e1, e1r, e2, e2r, e3, e3r, e4, hrev0]
      omega

/-- `tourLen_three` restated at tour positions: reversing
`tour[u_i+1 .. w_i]` (the applied 2-opt move, `u_i + 2 ≤ w_i`) exchanges the
edges `(u,v),(w,z)` for `(u,w),(v,z)` in the cyclic length. -/
lemma tourLen_reverseRange (d : ℕ → ℕ → ℕ) (hsym : ∀ x y, d x y = d y x)
    (t : List ℕ) {u_i w_i : ℕ} (h1 : u_i + 2 ≤ w_i) (h2 : w_i < t.length) :
    calculateTourLength d (reverseRange t (u_i + 1) (w_i + 1)) +
      (d (t.getD u_i 0) (t.getD (u_i + 1) 0) +
       d (t.getD w_i 0) (t.getD ((w_i + 1) % t.length) 0)) =
    calculateTourLength d t +
      (d (t.getD u_i 0) (t.getD w_i 0) +
       d (t.getD (u_i + 1) 0) (t.getD ((w_i + 1) % t.length) 0)) := by
  have hPlen : (t.take (u_i + 1)).length = u_i + 1 := by
    simp [List.length_take]
    omega
  have hMlen : ((t.drop (u_i + 1)).take (w_i - u_i)).length = w_i - u_i := by
    simp [List.length_take, List.length_drop]
    omega
  have hPne : t.take (u_i + 1) ≠ [] := by
    intro hcon
    have := congrArg List.length hcon
    rw [hPlen] at this
    simp at this
  have hMne : (t.drop (u_i + 1)).take (w_i - u_i) ≠ [] := by
    intro hcon
    have := congrArg List.length hcon
    rw [hMlen] at this
    simp at this
    omega
  have hMS : (t.drop (u_i + 1)).take (w_i - u_i) ++ t.drop (w_i + 1) =
      t.drop (u_i + 1) := by
    have h3 : (t.drop (u_i + 1)).drop (w_i - u_i) = t.drop (w_i + 1) := by
      rw [List.drop_drop]
      congr 1
      omega
    rw [← h3, List.take_append_drop]
  have hsplit :
      t.take (u_i + 1) ++ (t.drop (u_i + 1)).take (w_i - u_i) ++ t.drop (w_i + 1)
        = t := by
    rw [List.append_assoc, hMS, List.take_append_drop]
  have harith : w_i + 1 - (u_i + 1) = w_i - u_i := by omega
  have hrr : reverseRange t (u_i + 1) (w_i + 1) =
      t.take (u_i + 1) ++ ((t.drop (u_i + 1)).take (w_i - u_i)).reverse ++
        t.drop (w_i + 1) := by
    unfold reverseRange
    rw [if_neg (by omega), harith]
  have gU : (t.take (u_i + 1)).getD ((t.take (u_i + 1)).length - 1) 0 =
      t.getD u_i 0 := by
    rw [hPlen, Nat.add_sub_cancel]
    exact getD_take t (by omega) (by omega)
  have gV : ((t.drop (u_i + 1)).take (w_i - u_i)).getD 0 0 =
      t.getD (u_i + 1) 0 := by
    rw [getD_take _ (by omega) (by simp [List.length_drop]; omega)]
    have h0 := @getD_drop t (u_i + 1) 0 (by omega)
    rw [Nat.add_zero] at h0
    exact h0
  have gW : ((t.drop (u_i + 1)).take (w_i - u_i)).getD
      (((t.drop (u_i + 1)).take (w_i - u_i)).length - 1) 0 = t.getD w_i 0 := by
    rw [hMlen]
    rw [getD_take _ (by omega) (by simp [List.length_drop]; omega)]
    rw [getD_drop t (by omega)]
    congr 1
    omega
  have gZ : (t.drop (w_i + 1) ++ t.take (u_i + 1)).getD 0 0 =
      t.getD ((w_i + 1) % t.length) 0 := by
    by_cases hw : w_i + 1 < t.length
    · have hSpos : 0 < (t.drop (w_i + 1)).length := by
        simp [List.length_drop]
        omega
      rw [List.getD_append _ _ _ _ hSpos]
      have h0 := @getD_drop t (w_i + 1) 0 (by omega)
      rw [Nat.add_zero] at h0
      rw [Nat.mod_eq_of_lt hw]
      exact h0
    · have hwn : w_i + 1 = t.length := by omega
      have hS : t.drop (w_i + 1) = [] := by
        apply List.drop_eq_nil_of_le
        omega
      rw [hS, List.nil_append, getD_take t (by omega) (by omega), hwn,
        Nat.mod_self]
  have main := tourLen_three d hsym (t.take (u_i + 1))
    ((t.drop (u_i + 1)).take (w_i - u_i)) (t.drop (w_i + 1)) hPne hMne
  rw [gU, gV, gW, gZ, hsplit, ← hrr] at main
  exact main

/-- Inversion of the candidate scan: a returned position `w_i` is the
`find`-position of some candidate `w` that passed the adjacency test, with a
strict improvement. -/
lemma scanCandidates_eq_some {d : ℕ → ℕ → ℕ} {t : List ℕ} {n u_i u v : ℕ}
    {cands : List ℕ} {w_i : ℕ}
    (h : scanCandidates d t n u_i u v cands = some w_i) :
    ∃ w ∈ cands, t.indexOf w = w_i ∧ w_i ≠ u_i ∧ w_i ≠ (u_i + 1) % n ∧
      (d u w + d v (t.getD ((w_i + 1) % n) 0)) % 4294967296 <
        (d u v + d w (t.getD ((w_i + 1) % n) 0)) % 4294967296 := by
  induction cands with
  | nil => exact absurd h (by simp [scanCandidates])
  | cons w rest ih =>
      simp only [scanCandidates] at h
      by_cases h1 : t.indexOf w = u_i ∨ t.indexOf w = (u_i + 1) % n
      · rw [if_pos h1] at h
        obtain ⟨w2, hmem, hrest⟩ := ih h
        exact ⟨w2, List.mem_cons_of_mem _ hmem, hrest⟩
      · rw [if_neg h1] at h
        by_cases h2 : (d u w + d v (t.getD ((t.indexOf w + 1) % n) 0)) % 4294967296 <
            (d u v + d w (t.getD ((t.indexOf w + 1) % n) 0)) % 4294967296
        · rw [if_pos h2] at h
          have heq : t.indexOf w = w_i := Option.some.inj h
          push_neg at h1
          refine ⟨w, List.mem_cons_self _ _, heq, ?_, ?_, ?_⟩
          · rw [← heq]; exact h1.1
          · rw [← heq]; exact h1.2
          · rw [← heq]; exact h2
        · rw [if_neg h2] at h
          obtain ⟨w2, hmem, hrest⟩ := ih h
          exact ⟨w2, List.mem_cons_of_mem _ hmem, hrest⟩

/-- One sweep-loop body never increases the tour length and keeps the tour a
permutation of `[0, n)`.  (An applied move is either a forward reversal —
strict improvement by `tourLen_reverseRange` — or an inverted-range no-op.) -/
lemma sweepStep_le {d : ℕ → ℕ → ℕ} (hsym : ∀ x y, d x y = d y x)
    (hdlt : ∀ x y, d x y < 2147483648)
    {nb : ℕ → List ℕ} {n : ℕ}
    (hnb : ∀ u2 < n, ∀ w ∈ nb u2, w < n)
    {s : List ℕ × Bool} {u_i : ℕ}
    (hperm : s.1.Perm (List.range n)) (hui : u_i < n - 1) :
    (sweepStep d nb n s u_i).1.Perm (List.range n) ∧
    calculateTourLength d (sweepStep d nb n s u_i).1 ≤
      calculateTourLength d s.1 := by
  have hlen : s.1.length = n := by
    rw [hperm.length_eq, List.length_range]
  cases hscan : scanCandidates d s.1 n u_i (s.1.getD u_i 0)
      (s.1.getD (u_i + 1) 0) (nb (s.1.getD u_i 0)) with
  | none =>
      have hstep : sweepStep d nb n s u_i = s := by
        simp only [sweepStep, hscan]
      rw [hstep]
      exact ⟨hperm, le_refl _⟩
  | some w_i =>
      have hstep : sweepStep d nb n s u_i =
          (reverseRange s.1 (u_i + 1) (w_i + 1), true) := by
        simp only [sweepStep, hscan]
      rw [hstep]
      obtain ⟨w, hwmem, hwidx, hne1, hne2, hlt⟩ := scanCandidates_eq_some hscan
      refine ⟨(reverseRange_perm _ _ _).trans hperm, ?_⟩
      have hu : s.1.getD u_i 0 < n := by
        have hmem : s.1.getD u_i 0 ∈ s.1 := by
          rw [List.getD_eq_getElem _ _ (by omega)]
          exact List.getElem_mem _
        exact List.mem_range.1 (hperm.mem_iff.1 hmem)
      have hwn : w < n := hnb _ hu w hwmem
      have hwint : w ∈ s.1 := hperm.mem_iff.2 (List.mem_range.2 hwn)
      have hwi_lt : w_i < n := by
        rw [← hwidx, ← hlen]
        exact List.indexOf_lt_length.2 hwint
      have hwval : s.1.getD w_i 0 = w := by
        rw [← hwidx, List.getD_eq_getElem _ _ (by rw [hwidx]; omega)]
        exact List.indexOf_get (by rw [hwidx]; omega)
      by_cases hback : w_i ≤ u_i
      · have hnoop : reverseRange s.1 (u_i + 1) (w_i + 1) = s.1 := by
          unfold reverseRange
          rw [if_pos (by omega)]
        rw [hnoop]
      · have hne2' : w_i ≠ u_i + 1 := by
          intro hcon
          apply hne2
          rw [hcon, Nat.mod_eq_of_lt (by omega)]
        have hfwd : u_i + 2 ≤ w_i := by omega
        have hm1 : d (s.1.getD u_i 0) w +
            d (s.1.getD (u_i + 1) 0) (s.1.getD ((w_i + 1) % n) 0) <
            4294967296 := by
          have hb1 := hdlt (s.1.getD u_i 0) w
          have hb2 := hdlt (s.1.getD (u_i + 1) 0) (s.1.getD ((w_i + 1) % n) 0)
          omega
        have hm2 : d (s.1.getD u_i 0) (s.1.getD (u_i + 1) 0) +
            d w (s.1.getD ((w_i + 1) % n) 0) < 4294967296 := by
          have hb1 := hdlt (s.1.getD u_i 0) (s.1.getD (u_i + 1) 0)
          have hb2 := hdlt w (s.1.getD ((w_i + 1) % n) 0)
          omega
        rw [Nat.mod_eq_of_lt hm1, Nat.mod_eq_of_lt hm2] at hlt
        have heq := tourLen_reverseRange d hsym s.1 hfwd (by omega)
        rw [hlen] at heq
        rw [hwval] at heq
        show calculateTourLength d (reverseRange s.1 (u_i + 1) (w_i + 1)) ≤
          calculateTourLength d s.1
        omega

/-- A full `twoOpt` sweep never increases the tour length and keeps the tour
a permutation of `[0, n)`. -/
lemma sweep_le {d : ℕ → ℕ → ℕ} (hsym : ∀ x y, d x y = d y x)
    (hdlt : ∀ x y, d x y < 2147483648)
    {nb : ℕ → List ℕ} {t : List ℕ}
    (hperm : t.Perm (List.range t.length))
    (hnb : ∀ u2 < t.length, ∀ w ∈ nb u2, w < t.length) :
    (sweep d nb t).1.Perm (List.range t.length) ∧
    calculateTourLength d (sweep d nb t).1 ≤ calculateTourLength d t := by
  unfold sweep
  refine @foldl_inv _ _
    (fun (s : List ℕ × Bool) => s.1.Perm (List.range t.length) ∧
      calculateTourLength d s.1 ≤ calculateTourLength d t) _ _ _
    ⟨hperm, le_refl _⟩ ?_
  intro s u_i hmem hs
  have hui : u_i < t.length - 1 := List.mem_range.1 hmem
  obtain ⟨h1, h2⟩ := sweepStep_le hsym hdlt hnb hs.1 hui
  exact ⟨h1, le_trans h2 hs.2⟩

/-- `twoOpt` (to any fuel) never increases the tour length and preserves
being a permutation of `[0, n)`. -/
lemma twoOptFuel_le {d : ℕ → ℕ → ℕ} (hsym : ∀ x y, d x y = d y x)
    (hdlt : ∀ x y, d x y < 2147483648)
    {nb : ℕ → List ℕ} {fuel : ℕ} {t t2 : List ℕ}
    (hperm : t.Perm (List.range t.length))
    (hnb : ∀ u2 < t.length, ∀ w ∈ nb u2, w < t.length)
    (h : twoOptFuel d nb fuel t = some t2) :
    calculateTourLength d t2 ≤ calculateTourLength d t ∧
      t2.Perm (List.range t.length) := by
  induction fuel generalizing t with
  | zero => exact absurd h (by simp [twoOptFuel])
  | succ f ih =>
      unfold twoOptFuel at h
      obtain ⟨hp, hle⟩ := sweep_le hsym hdlt hperm hnb
      cases hsw : sweep d nb t with
      | mk t3 fl =>
          rw [hsw] at h hp hle
          cases fl with
          | false =>
              have : t3 = t2 := Option.some.inj h
              subst this
              exact ⟨hle, hp⟩
          | true =>
              have hpA : t3.Perm (List.range t.length) := hp
              have hleA : calculateTourLength d t3 ≤ calculateTourLength d t := hle
              have hlen3 : t3.length = t.length := by
                rw [hpA.length_eq, List.length_range]
              have hp3 : t3.Perm (List.range t3.length) := by
                rw [hlen3]
                exact hpA
              have hnb3 : ∀ u2 < t3.length, ∀ w ∈ nb u2, w < t3.length := by
                rw [hlen3]
                exact hnb
              obtain ⟨ha, hb⟩ := ih hp3 hnb3 h
              rw [hlen3] at hb
              exact ⟨le_trans ha hleA, hb⟩

/-- The orchestrator loop never increases the tour length and preserves
being a permutation of `[0, n)`. -/
lemma solveLoop_le {d : ℕ → ℕ → ℕ} (hsym : ∀ x y, d x y = d y x)
    (hdlt : ∀ x y, d x y < 2147483648)
    {nb : ℕ → List ℕ} {n : ℕ} {oracle : ℕ → Bool} {tfuel : ℕ}
    (hnb : ∀ u2 < n, ∀ w ∈ nb u2, w < n) :
    ∀ fuel r tour improved t2, tour.Perm (List.range n) →
      solveLoop d nb oracle tfuel fuel r tour improved = some t2 →
      calculateTourLength d t2 ≤ calculateTourLength d tour ∧
        t2.Perm (List.range n) := by
  intro fuel
  induction fuel with
  | zero =>
      intro r tour improved t2 hperm h
      exact absurd h (by simp [solveLoop])
  | succ f ih =>
      intro r tour improved t2 hperm h
      unfold solveLoop at h
      by_cases himp : improved = false
      · rw [if_pos himp] at h
        have : tour = t2 := Option.some.inj h
        subst this
        exact ⟨le_refl _, hperm⟩
      · rw [if_neg himp] at h
        by_cases htime : oracle r
        · rw [if_pos htime] at h
          have : tour = t2 := Option.some.inj h
          subst this
          exact ⟨le_refl _, hperm⟩
        · rw [if_neg htime] at h
          have hlen : tour.length = n := by
            rw [hperm.length_eq, List.length_range]
          cases hrun : twoOptFuel d nb tfuel tour with
          | none => rw [hrun] at h; exact absurd h (by simp)
          | some t3 =>
              rw [hrun] at h
              have hA : (if calculateTourLength d tour ≤ calculateTourLength d t3 then
                    solveLoop d nb oracle tfuel f (r + 1) tour false
                  else solveLoop d nb oracle tfuel f (r + 1) t3 true) = some t2 := h
              have hperm2 : tour.Perm (List.range tour.length) := by
                rw [hlen]; exact hperm
              have hnb2 : ∀ u2 < tour.length, ∀ w ∈ nb u2, w < tour.length := by
                rw [hlen]; exact hnb
              obtain ⟨hle3, hp3⟩ := twoOptFuel_le hsym hdlt hperm2 hnb2 hrun
              rw [hlen] at hp3
              by_cases hcmp : calculateTourLength d tour ≤ calculateTourLength d t3
              · rw [if_pos hcmp] at hA
                exact ih _ _ _ _ hperm hA
              · rw [if_neg hcmp] at hA
                obtain ⟨ha, hb⟩ := ih _ _ _ _ hp3 hA
                exact ⟨le_trans ha (le_of_lt (by omega)), hb⟩

lemma intOfUInt32_eq {v : ℕ} (h : v < 2147483648) : intOfUInt32 v = (v : ℤ) := by
  unfold intOfUInt32
  have hm : v % 4294967296 = v := Nat.mod_eq_of_lt (by omega)
  rw [hm, if_pos h]

lemma toUInt16_coe {b : ℕ} (h : b < 65536) : toUInt16 (b : ℤ) = b := by
  unfold toUInt16
  have : ((b : ℤ) % 65536) = (b : ℤ) := Int.emod_eq_of_lt (by omega) (by exact_mod_cast h)
  rw [this, Int.toNat_natCast]

lemma toUInt16_lt (z : ℤ) : toUInt16 z < 65536 := by
  unfold toUInt16
  have h1 : 0 ≤ z % 65536 := Int.emod_nonneg z (by norm_num)
  have h2 : z % 65536 < 65536 := Int.emod_lt_of_pos z (by norm_num)
  omega

/-- Invariant of the greedy inner scan over the processed prefix
`j = 0 .. m-1`: either everything seen so far was visited (state still
`(-1, INT_MAX)`), or the state holds the first-encountered minimum-distance
unvisited node. -/
lemma greedyScan_inv (d : ℕ → ℕ → ℕ) (used : ℤ → Bool) (prev : ℕ)
    (hd : ∀ j, d prev j < 2147483647) (m : ℕ) :
    ((∀ j < m, used (j : ℤ) = true) ∧
      (List.range m).foldl (scanStep d used prev) (-1, 2147483647) =
        (-1, 2147483647)) ∨
    (∃ b, b < m ∧ used (b : ℤ) = false ∧
      (List.range m).foldl (scanStep d used prev) (-1, 2147483647) =
        ((b : ℤ), (d prev b : ℤ)) ∧
      ∀ j, j < m → used (j : ℤ) = false →
        d prev b < d prev j ∨ (d prev b = d prev j ∧ b ≤ j)) := by
  induction m with
  | zero => exact Or.inl ⟨by omega, rfl⟩
  | succ m ih =>
      rw [List.range_succ, List.foldl_append]
      rcases ih with ⟨hall, hacc⟩ | ⟨b, hbm, hbu, hacc, hmin⟩
      · rw [hacc]
        by_cases hum : used (m : ℤ) = false
        · right
          refine ⟨m, by omega, hum, ?_, ?_⟩
          · simp only [List.foldl_cons, List.foldl_nil, scanStep]
            rw [if_pos hum, intOfUInt32_eq (by have := hd m; omega)]
            rw [if_pos (by exact_mod_cast (by have := hd m; omega : d prev m < 2147483647))]
          · intro j hj hju
            rcases Nat.lt_succ_iff_lt_or_eq.1 hj with hj2 | hj2
            · exact absurd (hall j hj2) (by rw [hju]; simp)
            · subst hj2
              exact Or.inr ⟨rfl, le_refl _⟩
        · left
          refine ⟨?_, ?_⟩
          · intro j hj
            rcases Nat.lt_succ_iff_lt_or_eq.1 hj with hj2 | hj2
            · exact hall j hj2
            · subst hj2
              revert hum
              cases used (j : ℤ) <;> simp
          · simp only [List.foldl_cons, List.foldl_nil, scanStep]
            rw [if_neg hum]
      · rw [hacc]
        by_cases hum : used (m : ℤ) = false
        · by_cases hcmp : d prev m < d prev b
          · right
            refine ⟨m, by omega, hum, ?_, ?_⟩
            · simp only [List.foldl_cons, List.foldl_nil, scanStep]
              rw [if_pos hum, intOfUInt32_eq (by have := hd m; omega)]
              rw [if_pos (by exact_mod_cast hcmp)]
            · intro j hj hju
              rcases Nat.lt_succ_iff_lt_or_eq.1 hj with hj2 | hj2
              · rcases hmin j hj2 hju with hc | ⟨hc, _⟩
                · exact Or.inl (lt_trans hcmp hc)
                · exact Or.inl (by omega)
              · subst hj2
                exact Or.inr ⟨rfl, le_refl _⟩
          · right
            refine ⟨b, by omega, hbu, ?_, ?_⟩
            · simp only [List.foldl_cons, List.foldl_nil, scanStep]
              rw [if_pos hum, intOfUInt32_eq (by have := hd m; omega)]
              rw [if_neg (by exact_mod_cast hcmp)]
            · intro j hj hju
              rcases Nat.lt_succ_iff_lt_or_eq.1 hj with hj2 | hj2
              · exact hmin j hj2 hju
              · subst hj2
                rcases Nat.lt_or_ge (d prev b) (d prev j) with hc | hc
                · exact Or.inl hc
                · exact Or.inr ⟨by omega, by omega⟩
        · right
          refine ⟨b, by omega, hbu, ?_, ?_⟩
          · simp only [List.foldl_cons, List.foldl_nil, scanStep]
            rw [if_neg hum]
          · intro j hj hju
            rcases Nat.lt_succ_iff_lt_or_eq.1 hj with hj2 | hj2
            · exact hmin j hj2 hju
            · subst hj2
              exact absurd hju (by revert hum; cases used (j : ℤ) <;> simp)

/-- If some node is still unvisited, the greedy scan returns the
first-encountered minimum-distance unvisited node. -/
lemma greedyScan_spec {d : ℕ → ℕ → ℕ} {used : ℤ → Bool} {prev n : ℕ}
    (hd : ∀ j, d prev j < 2147483647) {j0 : ℕ} (hj0 : j0 < n)
    (hj0u : used (j0 : ℤ) = false) :
    ∃ b, b < n ∧ used (b : ℤ) = false ∧
      greedyScan d n used prev = ((b : ℤ), (d prev b : ℤ)) ∧
      ∀ j, j < n → used (j : ℤ) = false →
        d prev b < d prev j ∨ (d prev b = d prev j ∧ b ≤ j) := by
  rcases greedyScan_inv d used prev hd n with ⟨hall, _⟩ | ⟨b, h1, h2, h3, h4⟩
  · exact absurd (hall j0 hj0) (by rw [hj0u]; simp)
  · exact ⟨b, h1, h2, h3, h4⟩

lemma greedyAux_length (d : ℕ → ℕ → ℕ) (n : ℕ) :
    ∀ steps (tour : List ℕ) (used : ℤ → Bool),
      (greedyAux d n steps tour used).length = tour.length + steps := by
  intro steps
  induction steps with
  | zero => intro tour used; rfl
  | succ st ih =>
      intro tour used
      simp only [greedyAux]
      rw [ih]
      simp
      omega

lemma greedyAux_entries_lt (d : ℕ → ℕ → ℕ) (n : ℕ) :
    ∀ steps (tour : List ℕ) (used : ℤ → Bool),
      (∀ x ∈ tour, x < 65536) →
      ∀ x ∈ greedyAux d n steps tour used, x < 65536 := by
  intro steps
  induction steps with
  | zero => intro tour used h; exact h
  | succ st ih =>
      intro tour used h
      simp only [greedyAux]
      refine ih _ _ ?_
      intro x hx
      rcases List.mem_append.1 hx with hx | hx
      · exact h x hx
      · have : x = toUInt16 (greedyScan d n used (tour.getD (tour.length - 1) 0)).1 := by
          simpa using hx
        rw [this]
        exact toUInt16_lt _

/-- Invariant of the greedy construction loop: the final tour extends the
current one to a full duplicate-free cover of `[0, n)`, and every appended
position satisfies the greedy-choice property. -/
lemma greedyAux_spec (d : ℕ → ℕ → ℕ) {n : ℕ} (hn2 : n ≤ 65536)
    (hd : ∀ p j, d p j < 2147483647) :
    ∀ steps (tour : List ℕ) (used : ℤ → Bool),
      tour.length + steps = n →
      tour ≠ [] →
      (∀ x ∈ tour, x < n) →
      tour.Nodup →
      (∀ j : ℕ, j < n → (used (j : ℤ) = true ↔ j ∈ tour)) →
      (greedyAux d n steps tour used).length = n ∧
      (greedyAux d n steps tour used).Nodup ∧
      (∀ x ∈ greedyAux d n steps tour used, x < n) ∧
      tour <+: greedyAux d n steps tour used ∧
      ∀ i, tour.length ≤ i → i < n →
        GreedyChoice d n (greedyAux d n steps tour used) i := by
  intro steps
  induction steps with
  | zero =>
      intro tour used hlen hne hbnd hnd hinv
      refine ⟨by simpa using hlen, hnd, hbnd, List.prefix_refl _, ?_⟩
      intro i h1 h2
      omega
  | succ st ih =>
      intro tour used hlen hne hbnd hnd hinv
      have hlt : tour.length < n := by omega
      have hex : ∃ j0, j0 < n ∧ j0 ∉ tour := by
        by_contra hcon
        push_neg at hcon
        have hsub : List.range n ⊆ tour := by
          intro x hx
          exact hcon x (List.mem_range.1 hx)
        have := ((List.nodup_range n).subperm hsub).length_le
        rw [List.length_range] at this
        omega
      obtain ⟨j0, hj0n, hj0t⟩ := hex
      have hj0u : used (j0 : ℤ) = false := by
        cases hbool : used (j0 : ℤ) with
        | false => rfl
        | true => exact absurd ((hinv j0 hj0n).1 hbool) hj0t
      obtain ⟨b, hbn, hbu, hscan, hmin⟩ :=
        greedyScan_spec (fun j => hd (tour.getD (tour.length - 1) 0) j) hj0n hj0u
      have hbt : b ∉ tour := by
        intro hmem
        have := (hinv b hbn).2 hmem
        rw [hbu] at this
        exact Bool.false_ne_true this
      have hbest : (greedyScan d n used (tour.getD (tour.length - 1) 0)).1 =
          (b : ℤ) := by rw [hscan]
      have hb16 : toUInt16 ((b : ℕ) : ℤ) = b := toUInt16_coe (by omega)
      have hstep : greedyAux d n (st + 1) tour used =
          greedyAux d n st (tour ++ [b])
            (Function.update used ((b : ℕ) : ℤ) true) := by
        simp only [greedyAux]
        rw [hbest, hb16]
      have hlen2 : (tour ++ [b]).length + st = n := by
        simp
        omega
      have hne2 : tour ++ [b] ≠ [] := by simp
      have hbnd2 : ∀ x ∈ tour ++ [b], x < n := by
        intro x hx
        rcases List.mem_append.1 hx with hx | hx
        · exact hbnd x hx
        · have : x = b := by simpa using hx
          omega
      have hnd2 : (tour ++ [b]).Nodup := by
        rw [List.nodup_append]
        refine ⟨hnd, List.nodup_singleton _, ?_⟩
        intro a ha hb2
        have : a = b := by simpa using hb2
        subst this
        exact hbt ha
      have hinv2 : ∀ j : ℕ, j < n →
          ((Function.update used ((b : ℕ) : ℤ) true) (j : ℤ) = true ↔
            j ∈ tour ++ [b]) := by
        intro j hj
        by_cases hjb : j = b
        · subst hjb
          rw [Function.update_same]
          simp
        · have hne3 : (j : ℤ) ≠ ((b : ℕ) : ℤ) := by exact_mod_cast hjb
          rw [Function.update_noteq hne3, hinv j hj]
          simp [hjb]
      obtain ⟨ihlen, ihnd, ihbnd, ihpre, ihchoice⟩ :=
        ih (tour ++ [b]) _ hlen2 hne2 hbnd2 hnd2 hinv2
      rw [hstep]
      have hpre1 : tour <+: tour ++ [b] := List.prefix_append tour [b]
      refine ⟨ihlen, ihnd, ihbnd, hpre1.trans ihpre, ?_⟩
      intro i h1 h2
      rcases Nat.lt_or_ge i (tour.length + 1) with hi | hi
      · -- i = tour.length : the freshly appended choice
        have hieq : i = tour.length := by omega
        subst hieq
        have hpre3 : tour <+: greedyAux d n st (tour ++ [b])
            (Function.update used ((b : ℕ) : ℤ) true) := hpre1.trans ihpre
        have htake : (greedyAux d n st (tour ++ [b])
            (Function.update used ((b : ℕ) : ℤ) true)).take tour.length = tour :=
          (List.prefix_iff_eq_take.1 hpre3).symm
        have hlenR : tour.length < (greedyAux d n st (tour ++ [b])
            (Function.update used ((b : ℕ) : ℤ) true)).length := by
          rw [ihlen]
          omega
        have h1' : tour.length < (tour ++ [b]).length := by simp
        have hRi : (greedyAux d n st (tour ++ [b])
            (Function.update used ((b : ℕ) : ℤ) true)).getD tour.length 0 = b := by
          have e1 : (tour ++ [b]).getD tour.length 0 = b := by
            rw [List.getD_append_right _ _ _ _ (le_refl _)]
            simp
          have e2 : (tour ++ [b]).getD tour.length 0 =
              (greedyAux d n st (tour ++ [b])
                (Function.update used ((b : ℕ) : ℤ) true)).getD tour.length 0 := by
            rw [List.getD_eq_getElem _ _ h1', List.getD_eq_getElem _ _ hlenR]
            exact List.IsPrefix.getElem ihpre h1'
          rw [← e2, e1]
        have hlp : tour.length - 1 < tour.length := by
          have : 0 < tour.length := List.length_pos.2 hne
          omega
        have hRprev : (greedyAux d n st (tour ++ [b])
            (Function.update used ((b : ℕ) : ℤ) true)).getD (tour.length - 1) 0 =
            tour.getD (tour.length - 1) 0 := by
          have hlt2 : tour.length - 1 < tour.length := hlp
          have hltR : tour.length - 1 < (greedyAux d n st (tour ++ [b])
              (Function.update used ((b : ℕ) : ℤ) true)).length := by omega
          have hltT : tour.length - 1 < tour.length := hlp
          rw [List.getD_eq_getElem _ _ hltR,
            List.getD_eq_getElem _ _ (by omega : tour.length - 1 < tour.length)]
          exact (List.IsPrefix.getElem hpre3 hltT).symm
        unfold GreedyChoice
        rw [hRi, htake, hRprev]
        refine ⟨hbn, hbt, ?_⟩
        intro j hj hjt
        have hju : used (j : ℤ) = false := by
          cases hbool : used (j : ℤ) with
          | false => rfl
          | true => exact absurd ((hinv j hj).1 hbool) hjt
        exact hmin j hj hju
      · -- positions handled by the induction hypothesis
        exact ihchoice i (by simp; omega) h2

/-- `greedyConstruction` returns a permutation of `[0, n)` that starts at
node `0` and makes the greedy choice at every later position (assuming all
distances fit into `int`, so the `uint32_t → int` conversion is lossless). -/
lemma greedyConstruction_spec (d : ℕ → ℕ → ℕ) {n : ℕ} (hn1 : 1 ≤ n)
    (hn2 : n ≤ 65536) (hd : ∀ p j, d p j < 2147483647) :
    (greedyConstruction d n).Perm (List.range n) ∧
    (greedyConstruction d n).getD 0 0 = 0 ∧
    ∀ i, 1 ≤ i → i < n → GreedyChoice d n (greedyConstruction d n) i := by
  have h0 : greedyConstruction d n =
      greedyAux d n (n - 1) [0] (Function.update (fun _ => false) 0 true) := by
    unfold greedyConstruction
    rw [if_neg (by omega)]
  have hinv0 : ∀ j : ℕ, j < n →
      ((Function.update (fun _ : ℤ => false) 0 true) (j : ℤ) = true ↔
        j ∈ ([0] : List ℕ)) := by
    intro j hj
    by_cases hj0 : j = 0
    · subst hj0
      rw [show ((0 : ℕ) : ℤ) = 0 by norm_num, Function.update_same]
      simp
    · have hne3 : (j : ℤ) ≠ 0 := by exact_mod_cast hj0
      rw [Function.update_noteq hne3]
      simp [hj0]
  obtain ⟨hlen, hnd, hbnd, hpre, hchoice⟩ :=
    greedyAux_spec d hn2 hd (n - 1) [0] _ (by simp; omega) (by simp)
      (by intro x hx; simp at hx; omega) (by simp) hinv0
  have hperm : (greedyAux d n (n - 1) [0]
      (Function.update (fun _ : ℤ => false) 0 true)).Perm (List.range n) := by
    have hsub : greedyAux d n (n - 1) [0]
        (Function.update (fun _ : ℤ => false) 0 true) ⊆ List.range n := by
      intro x hx
      exact List.mem_range.2 (hbnd x hx)
    exact (hnd.subperm hsub).perm_of_length_le (by rw [List.length_range, hlen])
  have hhead : (greedyAux d n (n - 1) [0]
      (Function.update (fun _ : ℤ => false) 0 true)).getD 0 0 = 0 := by
    have hlenR : 0 < (greedyAux d n (n - 1) [0]
        (Function.update (fun _ : ℤ => false) 0 true)).length := by
      rw [hlen]
      omega
    rw [List.getD_eq_getElem _ _ hlenR]
    have h01 : 0 < ([0] : List ℕ).length := by simp
    have := List.IsPrefix.getElem hpre h01
    simp at this
    rw [← this]
  rw [h0]
  exact ⟨hperm, hhead, fun i hi1 hi2 => hchoice i (by simpa using hi1) hi2⟩

lemma filter_ne_eq_erase (n i : ℕ) :
    (List.range n).filter (fun j => i ≠ j) = (List.range n).erase i := by
  rw [(List.nodup_range n).erase_eq_filter i]
  refine List.filter_congr ?_
  intro a _
  by_cases h : i = a
  · subst h
    simp
  · have h2 : a ≠ i := fun hc => h hc.symm
    simp [h, h2]

/-- With `n ≤ 65536` the `uint16_t` stores in a candidate row are lossless;
the row's pair list is the plain `(d i j, j)` list over `j ≠ i`. -/
lemma kNearestNeighbors_eq {d : ℕ → ℕ → ℕ} {n : ℕ} (K i : ℕ)
    (hn2 : n ≤ 65536) (hi : i < n) :
    kNearestNeighbors d n K i =
      (((((List.range n).filter (fun j => i ≠ j)).map
          (fun j => (d i j, j))).insertionSort pairLE).take
        (min K (n - 1))).map (fun p => p.2) ++ [i] := by
  unfold kNearestNeighbors
  have hmap : ((List.range n).filter (fun j => i ≠ j)).map
      (fun j => (d i j, j % 65536)) =
      ((List.range n).filter (fun j => i ≠ j)).map (fun j => (d i j, j)) := by
    refine List.map_congr_left ?_
    intro j hj
    have hjn : j < n := List.mem_range.1 (List.mem_filter.1 hj).1
    rw [Nat.mod_eq_of_lt (by omega)]
  rw [hmap, Nat.mod_eq_of_lt (by omega)]

/-- Every entry of every candidate row is a `uint16_t` value. -/
lemma kNearestNeighbors_entries_lt (d : ℕ → ℕ → ℕ) (n K i : ℕ) :
    ∀ x ∈ kNearestNeighbors d n K i, x < 65536 := by
  intro x hx
  unfold kNearestNeighbors at hx
  rcases List.mem_append.1 hx with hx | hx
  · obtain ⟨p, hp, hpx⟩ := List.mem_map.1 hx
    have hp2 : p ∈ ((List.range n).filter (fun j => i ≠ j)).map
        (fun j => (d i j, j % 65536)) :=
      (List.perm_insertionSort pairLE _).mem_iff.1 (List.take_subset _ _ hp)
    obtain ⟨j, _, hj2⟩ := List.mem_map.1 hp2
    rw [← hpx, ← hj2]
    exact Nat.mod_lt _ (by norm_num)
  · have : x = i % 65536 := by simpa using hx
    rw [this]
    exact Nat.mod_lt _ (by norm_num)

/-- With `i < n ≤ 65536`, every entry of row `i` is a valid node index. -/
lemma kNearestNeighbors_entries_lt_n {d : ℕ → ℕ → ℕ} {n K i : ℕ}
    (hn2 : n ≤ 65536) (hi : i < n) :
    ∀ x ∈ kNearestNeighbors d n K i, x < n := by
  intro x hx
  rw [kNearestNeighbors_eq K i hn2 hi] at hx
  rcases List.mem_append.1 hx with hx | hx
  · obtain ⟨p, hp, hpx⟩ := List.mem_map.1 hx
    have hp2 : p ∈ ((List.range n).filter (fun j => i ≠ j)).map
        (fun j => (d i j, j)) :=
      (List.perm_insertionSort pairLE _).mem_iff.1 (List.take_subset _ _ hp)
    obtain ⟨j, hj1, hj2⟩ := List.mem_map.1 hp2
    have hjn : j < n := List.mem_range.1 (List.mem_filter.1 hj1).1
    rw [← hpx, ← hj2]
    exact hjn
  · have : x = i := by simpa using hx
    omega

/-- C9: For every tour and every constructed distance matrix,
`calculateTourLength` is invariant under cyclic rotation by any amount and
under full reversal of the tour sequence. -/
theorem claimC9_tour_length_rotation_reversal_invariant
    (n : ℕ) (c : ℕ → ℕ → ℕ) (t : List ℕ) (k : ℕ) :
    calculateTourLength (buildDistances n c) (t.rotate k) =
      calculateTourLength (buildDistances n c) t ∧
    calculateTourLength (buildDistances n c) t.reverse =
      calculateTourLength (buildDistances n c) t :=
  ⟨calculateTourLength_rotate _ t k,
   calculateTourLength_reverse _ (buildDistances_symZeroDiag n c).2 t⟩

/-- C8: Every constructed DistanceMatrix is symmetric with zero diagonal:
for all indices `i` and `j`, `getDistance(i, i) = 0` and
`getDistance(i, j) = getDistance(j, i)` (for every point count `n` and every
value `c` of the pairwise distance computation). -/
theorem claimC8_distance_matrix_symmetric_zero_diagonal
    (n : ℕ) (c : ℕ → ℕ → ℕ) (i j : ℕ) :
    getDistance (buildDistances n c) i i = 0 ∧
    getDistance (buildDistances n c) i j = getDistance (buildDistances n c) j i :=
  ⟨(buildDistances_symZeroDiag n c).1 i, (buildDistances_symZeroDiag n c).2 i j⟩

/-- C2 is false on the code: on the matrix `loopD`, the candidate structure
`KNearestNeighbors(loopD, 1)` and the permutation tour `[1,3,4,5,2,0]`, the
sweep finds no improving candidate at positions `u_i = 0..3`, and at
`u_i = 4` (node `u = 2`, `v = 0`) its first improving candidate is `w = 3`
at position `w_i = 1 < u_i`: the move is applied (`locallyOptimal` is
cleared) but `reverse(tour.begin() + 5, tour.begin() + 2)` is an inverted
iterator range — undefined behaviour, a no-op under the
`while (first < last)` implementation — so the "swap" leaves the tour
unchanged instead of performing the claimed 2-opt edge exchange. -/
theorem claimC2_backward_move_applied :
    loopTour.Perm (List.range 6) ∧
    (∀ i < 6, ∀ j < 6, loopD i j = loopD j i ∧ loopD i i = 0) ∧
    scanCandidates loopD loopTour 6 0 (loopTour.getD 0 0) (loopTour.getD 1 0)
      (loopNb (loopTour.getD 0 0)) = none ∧
    scanCandidates loopD loopTour 6 1 (loopTour.getD 1 0) (loopTour.getD 2 0)
      (loopNb (loopTour.getD 1 0)) = none ∧
    scanCandidates loopD loopTour 6 2 (loopTour.getD 2 0) (loopTour.getD 3 0)
      (loopNb (loopTour.getD 2 0)) = none ∧
    scanCandidates loopD loopTour 6 3 (loopTour.getD 3 0) (loopTour.getD 4 0)
      (loopNb (loopTour.getD 3 0)) = none ∧
    scanCandidates loopD loopTour 6 4 (loopTour.getD 4 0) (loopTour.getD 5 0)
      (loopNb (loopTour.getD 4 0)) = some 1 ∧
    (1 : ℕ) < 4 ∧
    sweepStep loopD loopNb 6 (loopTour, false) 4 = (loopTour, true) ∧
    sweep loopD loopNb loopTour = (loopTour, true) := by decide

/-- C3 is false on the code: on the same instance — a permutation input
tour, a symmetric zero-diagonal matrix and the candidate structure built by
`KNearestNeighbors` with `k = 1` — every sweep applies the inverted-range
(no-op) move of `claimC2_backward_move_applied`, leaves the tour unchanged
and clears `locallyOptimal`, so `while (!locallyOptimal)` never exits: for
every fuel bound the modelled loop fails to reach a sweep without
improvement. -/
theorem claimC3_twoOpt_nonterminating :
    sweep loopD loopNb loopTour = (loopTour, true) ∧
    ∀ fuel, twoOptFuel loopD loopNb fuel loopTour = none := by
  have hs : sweep loopD loopNb loopTour = (loopTour, true) := by decide
  refine ⟨hs, fun fuel => ?_⟩
  induction fuel with
  | zero => rfl
  | succ f ih =>
      show twoOptFuel loopD loopNb (f + 1) loopTour = none
      unfold twoOptFuel
      rw [hs]
      exact ih

/-- C6: For every node `i` of a KNearestNeighbors structure built with
parameter `K` over `n ≥ 1` points (with representable indices), the row of
`i` is `min(K, n-1)` distinct node indices different from `i`, sorted by
ascending distance with ties broken by ascending index, followed by `i`
itself as the single trailing sentinel entry. -/
theorem claimC6_candidate_list_shape (d : ℕ → ℕ → ℕ) (n K i : ℕ)
    (_hn1 : 1 ≤ n) (hn2 : n ≤ 65536) (hi : i < n) :
    ∃ cands : List ℕ,
      kNearestNeighbors d n K i = cands ++ [i] ∧
      cands.length = min K (n - 1) ∧
      cands.Nodup ∧
      (∀ x ∈ cands, x < n ∧ x ≠ i) ∧
      List.Pairwise
        (fun a b => d i a < d i b ∨ (d i a = d i b ∧ a < b)) cands := by
  refine ⟨((((((List.range n).filter (fun j => i ≠ j)).map
      (fun j => (d i j, j))).insertionSort pairLE).take
        (min K (n - 1))).map (fun p => p.2)),
    kNearestNeighbors_eq K i hn2 hi, ?_, ?_, ?_, ?_⟩
  all_goals
    have hblen : ((List.range n).filter (fun j => i ≠ j)).length = n - 1 := by
      rw [filter_ne_eq_erase, List.length_erase_of_mem (List.mem_range.2 hi),
        List.length_range]
    have hbnodup : ((List.range n).filter (fun j => i ≠ j)).Nodup :=
      (List.nodup_range n).filter _
    have hpnodup : (((List.range n).filter (fun j => i ≠ j)).map
        (fun j => (d i j, j))).Nodup := by
      refine List.Nodup.map_on ?_ hbnodup
      intro x _ y _ hxy
      have := congrArg Prod.snd hxy
      simpa using this
    have hsortperm := List.perm_insertionSort pairLE
      ((((List.range n).filter (fun j => i ≠ j)).map (fun j => (d i j, j))))
    have hsortnodup := hsortperm.symm.nodup hpnodup
    have hsortlen := hsortperm.length_eq
    have hsorted := List.sorted_insertionSort pairLE
      ((((List.range n).filter (fun j => i ≠ j)).map (fun j => (d i j, j))))
    have hchar : ∀ p ∈ (((((List.range n).filter (fun j => i ≠ j)).map
        (fun j => (d i j, j))).insertionSort pairLE).take (min K (n - 1))),
        p.1 = d i p.2 ∧ p.2 < n ∧ p.2 ≠ i := by
      intro p hp
      have hp2 := hsortperm.mem_iff.1 (List.take_subset _ _ hp)
      obtain ⟨j, hj1, hj2⟩ := List.mem_map.1 hp2
      obtain ⟨hj3, hj4⟩ := List.mem_filter.1 hj1
      have hj5 : i ≠ j := by simpa using hj4
      rw [← hj2]
      exact ⟨rfl, List.mem_range.1 hj3, fun hc => hj5 hc.symm⟩
    have htnodup : (((((List.range n).filter (fun j => i ≠ j)).map
        (fun j => (d i j, j))).insertionSort pairLE).take
          (min K (n - 1))).Nodup :=
      (List.take_sublist _ _).nodup hsortnodup
  · rw [List.length_map, List.length_take, hsortlen, List.length_map, hblen]
    omega
  · refine List.Nodup.map_on ?_ htnodup
    intro x hx y hy hxy
    have hx1 := (hchar x hx).1
    have hy1 := (hchar y hy).1
    refine Prod.ext_iff.2 ⟨?_, hxy⟩
    rw [hx1, hy1, hxy]
  · intro x hx
    obtain ⟨p, hp, hpx⟩ := List.mem_map.1 hx
    obtain ⟨_, h2, h3⟩ := hchar p hp
    rw [← hpx]
    exact ⟨h2, h3⟩
  · rw [List.pairwise_map]
    have hpwle : List.Pairwise pairLE
        (((((List.range n).filter (fun j => i ≠ j)).map
          (fun j => (d i j, j))).insertionSort pairLE).take (min K (n - 1))) :=
      List.Pairwise.sublist (List.take_sublist _ _) hsorted
    have hand := hpwle.and htnodup
    refine hand.imp_of_mem ?_
    intro p q hp hq hpq
    obtain ⟨hle, hne⟩ := hpq
    obtain ⟨hp1, _, _⟩ := hchar p hp
    obtain ⟨hq1, _, _⟩ := hchar q hq
    rcases hle with hlt | ⟨heq, hle2⟩
    · rw [hp1] at hlt
      rw [hq1] at hlt
      exact Or.inl hlt
    · by_cases h22 : p.2 = q.2
      · exact absurd (Prod.ext_iff.2 ⟨by rw [hp1, hq1, h22], h22⟩) hne
      · refine Or.inr ⟨?_, by omega⟩
        rw [← hp1, ← hq1]
        exact heq

/-- C1 as stated is false on the code: for the two points
`(0,0)` and `(2147483647, 0)` the only pairwise distance is exactly
`INT_MAX = 2147483647`, so the greedy scan's test `dist < min_dist` never
fires (both are `INT_MAX`), `best_next` stays `-1` (the C++ also writes
`used[-1]`, out of bounds), the `uint16_t` store turns `-1` into `65535`,
and the tour the solver returns is `[0, 65535]` — not a permutation of
`[0, 2)`. -/
theorem claimC1_counterexample :
    greedyConstruction (buildDistances 2 (fun _ _ => 2147483647)) 2 =
      [0, 65535] ∧
    solveTSP 2 (fun _ _ => 2147483647) (fun _ => true) 1 1 =
      some [0, 65535] ∧
    ¬([0, 65535] : List ℕ).Perm (List.range 2) := by decide

/-- C1, amended: for every point set with `1 ≤ n ≤ 65536` whose pairwise
distance values are all below `INT_MAX` (so the `int` distance comparison
in the greedy scan is faithful and always fires — see
`claimC1_counterexample` for why the bound is necessary), the greedy
construction returns a permutation of `[0, n)`, `twoOpt` preserves being a
permutation, and any tour returned by `solveTSP` is a permutation of
`[0, n)`. -/
theorem claimC1_solver_output_is_permutation (n : ℕ) (c : ℕ → ℕ → ℕ)
    (hn1 : 1 ≤ n) (hn2 : n ≤ 65536) (hc : ∀ i j, c i j < 2147483647) :
    (greedyConstruction (buildDistances n c) n).Perm (List.range n) ∧
    (∀ t fuel t2, t.Perm (List.range n) →
      twoOptFuel (buildDistances n c)
        (fun u => kNearestNeighbors (buildDistances n c) n 20 u) fuel t =
          some t2 →
      t2.Perm (List.range n)) ∧
    (∀ oracle tfuel rfuel t, solveTSP n c oracle tfuel rfuel = some t →
      t.Perm (List.range n)) := by
  have hd : ∀ p j, buildDistances n c p j < 2147483647 :=
    buildDistances_lt (by norm_num) hc
  have hdlt : ∀ x y, buildDistances n c x y < 2147483648 :=
    fun x y => lt_trans (hd x y) (by norm_num)
  have hsym : ∀ x y, buildDistances n c x y = buildDistances n c y x :=
    (buildDistances_symZeroDiag n c).2
  have hnb : ∀ u < n,
      ∀ w ∈ (fun u => kNearestNeighbors (buildDistances n c) n 20 u) u, w < n :=
    fun u hu => kNearestNeighbors_entries_lt_n hn2 hu
  obtain ⟨hperm, hhead, hchoice⟩ :=
    greedyConstruction_spec (buildDistances n c) hn1 hn2 hd
  refine ⟨hperm, ?_, ?_⟩
  · intro t fuel t2 hp hrun
    have hlen : t.length = n := by rw [hp.length_eq, List.length_range]
    have hp2 : t.Perm (List.range t.length) := by rw [hlen]; exact hp
    have hnb2 : ∀ u < t.length,
        ∀ w ∈ (fun u => kNearestNeighbors (buildDistances n c) n 20 u) u,
          w < t.length := by
      rw [hlen]; exact hnb
    have := (twoOptFuel_le hsym hdlt hp2 hnb2 hrun).2
    rw [hlen] at this
    exact this
  · intro oracle tfuel rfuel t hrun
    simp only [solveTSP] at hrun
    exact (solveLoop_le hsym hdlt hnb rfuel 0 _ true t hperm hrun).2

/-- Closed instance of C1 at `n = 1`. -/
theorem claimC1_witness :
    (greedyConstruction (buildDistances 1 (fun _ _ => 0)) 1).Perm
      (List.range 1) :=
  (claimC1_solver_output_is_permutation 1 (fun _ _ => 0) (by norm_num)
    (by norm_num) (fun i j => by norm_num)).1

/-- C4 as stated is false on the code: on the four collinear points
`(0,0), (5·10^8,0), (2.2·10^9,0), (2.7·10^9,0)` the first `twoOpt` sweep
on the greedy tour `[0,2,3,1]` accepts the move at `u_i = 1`, `w_i = 3`
because `new_dist = d(2,1) + d(3,0) = 4.4·10^9` wraps modulo `2^32` to
`105032704`, which is below `curr_dist = d(2,3) + d(1,0) = 10^9`, and the
sweep strictly increases the tour length from `5.4·10^9` to `8.8·10^9`. -/
theorem claimC4_counterexample :
    greedyConstruction overflowD 4 = [0, 2, 3, 1] ∧
    ([0, 2, 3, 1] : List ℕ).Perm (List.range 4) ∧
    calculateTourLength overflowD [0, 2, 3, 1] <
      calculateTourLength overflowD
        (sweep overflowD (fun u => kNearestNeighbors overflowD 4 20 u)
          [0, 2, 3, 1]).1 := by decide

/-- C4, amended: provided every `calcDistance` value is below `INT_MAX`
(so the `uint32_t` sums in the improvement test cannot wrap — see
`claimC4_counterexample` for why the bound is necessary), a single
`twoOpt` sweep never increases `calculateTourLength`, and the tour finally
returned by `solveTSP` is no longer than the initial greedy tour. -/
theorem claimC4_length_never_increases (n : ℕ) (c : ℕ → ℕ → ℕ)
    (hn1 : 1 ≤ n) (hn2 : n ≤ 65536) (hc : ∀ i j, c i j < 2147483647) :
    (∀ K t, t.Perm (List.range n) →
      calculateTourLength (buildDistances n c)
        (sweep (buildDistances n c)
          (fun u => kNearestNeighbors (buildDistances n c) n K u) t).1 ≤
      calculateTourLength (buildDistances n c) t) ∧
    (∀ oracle tfuel rfuel t, solveTSP n c oracle tfuel rfuel = some t →
      calculateTourLength (buildDistances n c) t ≤
      calculateTourLength (buildDistances n c)
        (greedyConstruction (buildDistances n c) n)) := by
  have hd : ∀ p j, buildDistances n c p j < 2147483647 :=
    buildDistances_lt (by norm_num) hc
  have hdlt : ∀ x y, buildDistances n c x y < 2147483648 :=
    fun x y => lt_trans (hd x y) (by norm_num)
  have hsym : ∀ x y, buildDistances n c x y = buildDistances n c y x :=
    (buildDistances_symZeroDiag n c).2
  obtain ⟨hperm, hhead, hchoice⟩ :=
    greedyConstruction_spec (buildDistances n c) hn1 hn2 hd
  constructor
  · intro K t hp
    have hlen : t.length = n := by rw [hp.length_eq, List.length_range]
    have hp2 : t.Perm (List.range t.length) := by rw [hlen]; exact hp
    have hnb2 : ∀ u < t.length,
        ∀ w ∈ (fun u => kNearestNeighbors (buildDistances n c) n K u) u,
          w < t.length := by
      rw [hlen]
      intro u hu
      exact kNearestNeighbors_entries_lt_n hn2 hu
    exact (sweep_le hsym hdlt hp2 hnb2).2
  · intro oracle tfuel rfuel t hrun
    simp only [solveTSP] at hrun
    have hnb : ∀ u < n,
        ∀ w ∈ (fun u => kNearestNeighbors (buildDistances n c) n 20 u) u,
          w < n :=
      fun u hu => kNearestNeighbors_entries_lt_n hn2 hu
    exact (solveLoop_le hsym hdlt hnb rfuel 0 _ true t hperm hrun).1

/-- Closed instance of C4 at `n = 2` (sweep part). -/
theorem claimC4_witness :
    calculateTourLength (buildDistances 2 (fun _ _ => 1))
      (sweep (buildDistances 2 (fun _ _ => 1))
        (fun u => kNearestNeighbors (buildDistances 2 (fun _ _ => 1)) 2 20 u)
        [0, 1]).1 ≤
    calculateTourLength (buildDistances 2 (fun _ _ => 1)) [0, 1] :=
  (claimC4_length_never_increases 2 (fun _ _ => 1) (by norm_num) (by norm_num)
    (fun i j => by norm_num)).1 20 [0, 1] (by decide)

/-- C5: One round of the orchestrator loop: when the deadline has not
passed and the local-search round does not strictly decrease the length,
the snapshot is restored and returned; when it strictly decreases, the new
tour is kept and the loop repeats. -/
theorem claimC5_orchestrator_restore_or_continue (d : ℕ → ℕ → ℕ)
    (nb : ℕ → List ℕ) (oracle : ℕ → Bool) (tfuel fuel r : ℕ)
    (tour t2 : List ℕ) (htime : oracle r = false)
    (hrun : twoOptFuel d nb tfuel tour = some t2) :
    (calculateTourLength d tour ≤ calculateTourLength d t2 →
      solveLoop d nb oracle tfuel (fuel + 2) r tour true = some tour) ∧
    (calculateTourLength d t2 < calculateTourLength d tour →
      solveLoop d nb oracle tfuel (fuel + 1) r tour true =
        solveLoop d nb oracle tfuel fuel (r + 1) t2 true) := by
  constructor
  · intro hcmp
    simp only [solveLoop, htime, hrun]
    rw [if_pos hcmp]
    simp [solveLoop]
  · intro hcmp
    have hncmp : ¬(calculateTourLength d tour ≤ calculateTourLength d t2) := by
      omega
    simp only [solveLoop, htime, hrun]
    rw [if_neg hncmp]
    simp

/-- Closed instance of C5: a non-improving round restores the snapshot. -/
theorem claimC5_witness :
    solveLoop (fun _ _ => 0) (fun _ => []) (fun _ => false) 1 (0 + 2) 0
      [0, 1] true = some [0, 1] :=
  (claimC5_orchestrator_restore_or_continue (fun _ _ => 0) (fun _ => [])
    (fun _ => false) 1 0 0 [0, 1] [0, 1] rfl (by rfl)).1 (le_refl _)

/-- Closed instance of C6 at `n = 2`, `K = 3`, `i = 0`. -/
theorem claimC6_witness :
    ∃ cands : List ℕ,
      kNearestNeighbors (fun _ _ => 0) 2 3 0 = cands ++ [0] ∧
      cands.length = min 3 (2 - 1) ∧
      cands.Nodup ∧
      (∀ x ∈ cands, x < 2 ∧ x ≠ 0) ∧
      List.Pairwise (fun a b => (0 : ℕ) < 0 ∨ ((0 : ℕ) = 0 ∧ a < b)) cands :=
  claimC6_candidate_list_shape (fun _ _ => 0) 2 3 0 (by norm_num) (by norm_num)
    (by norm_num)

/-- C7 as stated is false on the code: on the four collinear points
`(0,0), (5·10^8,0), (2.2·10^9,0), (2.7·10^9,0)` of `overflowC`,
`d(0,2) = 2.2·10^9 ≥ 2^31` wraps to a
negative `int` in the greedy scan, so from node `0` greedy selects node
`2` although the genuinely nearest unvisited node is `1`
(`d(0,1) = 5·10^8 < d(0,2)`): the minimum-distance greedy-choice property
fails at position 1. -/
theorem claimC7_counterexample :
    greedyConstruction overflowD 4 = [0, 2, 3, 1] ∧
    overflowD 0 1 < overflowD 0 2 ∧
    ¬GreedyChoice overflowD 4 (greedyConstruction overflowD 4) 1 := by decide

/-- C7, amended: provided every `calcDistance` value is below `INT_MAX`
(so the `uint32_t → int` conversion in the greedy scan is lossless — see
`claimC7_counterexample` for why the bound is necessary),
`greedyConstruction` starts at node 0, each later element is the unvisited
node at minimum distance from the previous element with ties resolved
toward the lowest node index, and the result is a permutation of
`[0, n)`. -/
theorem claimC7_greedy_characterization (n : ℕ) (c : ℕ → ℕ → ℕ)
    (hn1 : 1 ≤ n) (hn2 : n ≤ 65536) (hc : ∀ i j, c i j < 2147483647) :
    (greedyConstruction (buildDistances n c) n).getD 0 0 = 0 ∧
    (greedyConstruction (buildDistances n c) n).Perm (List.range n) ∧
    ∀ i, 1 ≤ i → i < n →
      GreedyChoice (buildDistances n c) n
        (greedyConstruction (buildDistances n c) n) i := by
  have hd : ∀ p j, buildDistances n c p j < 2147483647 :=
    buildDistances_lt (by norm_num) hc
  obtain ⟨hperm, hhead, hchoice⟩ :=
    greedyConstruction_spec (buildDistances n c) hn1 hn2 hd
  exact ⟨hhead, hperm, hchoice⟩

/-- Closed instance of C7 at `n = 2`. -/
theorem claimC7_witness :
    (greedyConstruction (buildDistances 2 (fun _ _ => 1)) 2).getD 0 0 = 0 :=
  (claimC7_greedy_characterization 2 (fun _ _ => 1) (by norm_num) (by norm_num)
    (fun i j => by norm_num)).1

/-- C10: Node indices in tours and candidate lists are stored as 16-bit
unsigned integers: every stored entry is below `2^16`, so for `n > 65536`
(where distinct indices wrap to equal `uint16_t` values) the solver's
output cannot be a permutation of `[0, n)` — the permutation guarantee
holds only under the unstated precondition `n ≤ 65536`. -/
theorem claimC10_uint16_storage (n : ℕ) (c : ℕ → ℕ → ℕ) (h : 65536 < n) :
    (∀ x ∈ greedyConstruction (buildDistances n c) n, x < 65536) ∧
    (∀ K i, ∀ x ∈ kNearestNeighbors (buildDistances n c) n K i, x < 65536) ∧
    ¬(greedyConstruction (buildDistances n c) n).Perm (List.range n) := by
  have hbound : ∀ x ∈ greedyConstruction (buildDistances n c) n, x < 65536 := by
    unfold greedyConstruction
    rw [if_neg (by omega)]
    refine greedyAux_entries_lt _ _ _ _ _ ?_
    intro x hx
    have : x = 0 := by simpa using hx
    omega
  refine ⟨hbound, ?_, ?_⟩
  · intro K i
    exact kNearestNeighbors_entries_lt _ _ _ _
  · intro hperm
    have hmem : n - 1 ∈ greedyConstruction (buildDistances n c) n :=
      hperm.mem_iff.2 (List.mem_range.2 (by omega))
    have := hbound _ hmem
    omega

/-- Closed instance of C10 at `n = 65537`. -/
theorem claimC10_witness :
    ¬(greedyConstruction (buildDistances 65537 (fun _ _ => 0)) 65537).Perm
      (List.range 65537) :=
  (claimC10_uint16_storage 65537 (fun _ _ => 0) (by norm_num)).2.2

end TSP2D
